import Mathlib

/-
Verification of the option-pricing core of the TargetBuy dashboard
(`TargetBuyPBR.py`).

The Pricing Engine (`bs_call_price`, `bs_put_price`, `implied_vol_put`) is
embedded over the real numbers: `scipy.stats.norm.cdf` becomes the integral
of the standard normal density, and `scipy.optimize.brentq` becomes an
idealized bracketed root finder (it succeeds exactly when the endpoint
values of the objective do not have the same strict sign, which is scipy's
bracketing test, and Brent iteration on a continuous objective converges to
a root in the bracket; on failure it raises, which the source catches and
turns into `None`, here `none`).

The Contract Selector and Day Processor (`process_one_day` together with
`get_stock_price_from_yf`) are embedded over lists of chain rows with exact
rational arithmetic; a field that pandas would hold as a parsable number is
`some q`, and a missing or unparsable field is `none`.
-/

open MeasureTheory Set

/-- Standard normal density, the derivative of `scipy.stats.norm.cdf`. -/
noncomputable def gaussPdf (x : ℝ) : ℝ :=
  Real.exp (-(x ^ 2) / 2) / Real.sqrt (2 * Real.pi)

/-- `scipy.stats.norm.cdf`: the standard normal cumulative distribution. -/
noncomputable def normCdf (x : ℝ) : ℝ := ∫ t in Iic x, gaussPdf t

/-- `d1` as computed in `bs_call_price` / `bs_put_price`:
`(log(S/K) + (r + 0.5*sigma**2)*T) / (sigma*sqrt(T))`. -/
noncomputable def bsD1 (S K T r sigma : ℝ) : ℝ :=
  (Real.log (S / K) + (r + 0.5 * sigma ^ 2) * T) / (sigma * Real.sqrt T)

/-- `d2 = d1 - sigma*sqrt(T)` as computed in the source. -/
noncomputable def bsD2 (S K T r sigma : ℝ) : ℝ :=
  bsD1 S K T r sigma - sigma * Real.sqrt T

/-- Value returned by `bs_call_price` on its positive domain:
`S * norm.cdf(d1) - K * exp(-r*T) * norm.cdf(d2)`. -/
noncomputable def bsCallVal (S K T r sigma : ℝ) : ℝ :=
  S * normCdf (bsD1 S K T r sigma) -
    K * Real.exp (-r * T) * normCdf (bsD2 S K T r sigma)

/-- Value returned by `bs_put_price` on its positive domain:
`K * exp(-r*T) * norm.cdf(-d2) - S * norm.cdf(-d1)`. -/
noncomputable def bsPutVal (S K T r sigma : ℝ) : ℝ :=
  K * Real.exp (-r * T) * normCdf (-bsD2 S K T r sigma) -
    S * normCdf (-bsD1 S K T r sigma)

/-- `bs_call_price` from the source: `None` when
`S <= 0 or K <= 0 or T <= 0 or sigma <= 0`, otherwise the Black-Scholes
call value. -/
noncomputable def bs_call_price (S K T r sigma : ℝ) : Option ℝ :=
  if S ≤ 0 ∨ K ≤ 0 ∨ T ≤ 0 ∨ sigma ≤ 0 then none
  else some (bsCallVal S K T r sigma)

/-- `bs_put_price` from the source: same guard, put value. -/
noncomputable def bs_put_price (S K T r sigma : ℝ) : Option ℝ :=
  if S ≤ 0 ∨ K ≤ 0 ∨ T ≤ 0 ∨ sigma ≤ 0 then none
  else some (bsPutVal S K T r sigma)

/- `scipy.optimize.brentq f a b`, idealized: scipy first checks the
bracketing condition `f(a)*f(b) <= 0` (same strict sign raises
`ValueError`), and on a continuous objective Brent iteration converges to a
root inside the bracket.  The model returns such a root when one exists and
`none` exactly when scipy would raise. -/
open Classical in
noncomputable def brentq (f : ℝ → ℝ) (a b : ℝ) : Option ℝ :=
  if h : f a * f b ≤ 0 ∧ ∃ x ∈ Icc a b, f x = 0 then some h.2.choose
  else none

/- `implied_vol_put` from the source: brentq over
`sigma ∈ [0.0001, 3.0]` on `bs_put_price(S,K,T,r,sigma) - market_price`,
with any exception turned into `None`.  Every `sigma` probed by brentq lies
in `[0.0001, 3]` and is positive, so the lambda raises (a `TypeError` on
`None - market_price`) exactly when one of `S`, `K`, `T` is non-positive;
the surrounding `except` then yields `None`. -/
open Classical in
noncomputable def implied_vol_put (S K T r market_price : ℝ) : Option ℝ :=
  if 0 < S ∧ 0 < K ∧ 0 < T then
    brentq (fun sigma => bsPutVal S K T r sigma - market_price) 0.0001 3
  else none

/-- One row of the JPX daily chain (`HEADER_ROW` in the source), restricted
to the fields `process_one_day` reads.  A numeric field is `some q` when
present and parsable and `none` when missing or unparsable (pandas
`to_numeric(errors="coerce")` / a raising `float(...)`). -/
structure Row where
  productCode : String
  month : String
  strike : Option ℚ
  callClose : Option ℚ
  callIV : Option ℚ
  putClose : Option ℚ
  underlyingClose : Option ℚ
  baseIV : Option ℚ
  deriving DecidableEq

/-- One output record of `process_one_day` (the per-underlying list
appended to `records`); the date string is fixed by the caller and omitted. -/
structure Rec where
  code : String
  spot : ℚ
  month : String
  callStrike : ℚ
  callPrice : Option ℚ
  callTheo : Option ℝ
  sigmaCall : Option ℚ
  putStrike : ℚ
  putPrice : Option ℚ
  putTheo : Option ℝ
  putIV : Option ℝ
  assetIV : Option ℚ

/-- The hardcoded watchlist `TARGET_CODES`. -/
def TARGET_CODES : List String :=
  ["7203", "9432", "9984", "6758", "8306", "8035", "6861", "4502",
   "4063", "6954", "7974", "6098", "2413", "2801", "2914", "3382",
   "5108", "5401", "5713", "5802", "6301", "6501", "6503", "6594",
   "6702", "6723", "6752", "6762"]

/-- pandas `.str.strip()`: drop leading and trailing whitespace. -/
def pdStrip (s : String) : String :=
  ⟨((s.data.dropWhile (·.isWhitespace)).reverse.dropWhile
      (·.isWhitespace)).reverse⟩

/-- `strftime("%Y%m")`: the year followed by the zero-padded month. -/
def fmtYM (y m : ℕ) : String :=
  toString y ++ (if m < 10 then "0" ++ toString m else toString m)

/-- `(trade_date + pd.DateOffset(months=1)).strftime("%Y%m")` for a trade
date in year `y`, month `m` (`1 ≤ m ≤ 12`): one calendar month later,
formatted as year-month (`DateOffset` only clamps the day, which `%Y%m`
does not show). -/
def nextMonthStr (y m : ℕ) : String :=
  if m = 12 then fmtYM (y + 1) 1 else fmtYM y (m + 1)

/-- Spot resolution in `process_one_day`: start from the chain's own
`原資産終値` field (`chainClose`), fall back to yfinance when it is absent
or non-positive, and give up (`continue`) when the result is still absent
or non-positive. -/
def resolveSpot (chainClose yfClose : Option ℚ) : Option ℚ :=
  let spot := match chainClose with
    | some s => if s ≤ 0 then yfClose else some s
    | none => yfClose
  match spot with
  | some s => if s ≤ 0 then none else some s
  | none => none

/-- `pd.to_numeric(..., errors="coerce")` followed by
`dropna(subset=["権利行使価格"])`: keep each row paired with its parsed
strike, dropping rows whose strike does not parse. -/
def strikeRows (rows : List Row) : List (Row × ℚ) :=
  rows.filterMap (fun r => r.strike.map (fun s => (r, s)))

/-- `df_m.iloc[(df_m["権利行使価格"] - target).abs().argmin()]`:
`Series.argmin` returns the position of the first minimal value, so ties go
to the earliest row. -/
def pickNearest (t : ℚ) : List (Row × ℚ) → Option (Row × ℚ)
  | [] => none
  | x :: xs => some (xs.foldl (fun a y => if |y.2 - t| < |a.2 - t| then y else a) x)

/-- The Contract Selector (source lines 122-145): filter the underlying's
rows to the target expiry, drop unparsable strikes, pick the strike nearest
`spot*1.05` (call leg) and `spot*0.95` (put leg) with first-occurrence
tie-break, then reject the whole underlying when either selected strike is
more than 20% away from spot. -/
def selectContracts (dfCode : List Row) (spot : ℚ) (nm : String) :
    Option ((Row × ℚ) × (Row × ℚ)) :=
  let dfM := dfCode.filter (fun r => pdStrip r.month == nm)
  if dfM.isEmpty then none
  else
    let cand := strikeRows dfM
    match pickNearest (spot * 1.05) cand, pickNearest (spot * 0.95) cand with
    | some c, some p =>
      if (0.20 : ℚ) < |c.2 - spot| / spot then none
      else if (0.20 : ℚ) < |p.2 - spot| / spot then none
      else some (c, p)
    | _, _ => none

/-- The body of the watchlist loop of `process_one_day` for one underlying
whose chain rows are `dfCode`, with `yfClose` the yfinance fallback price
for that underlying.  Every `continue` is `none`. -/
noncomputable def processCodeRows (yfClose : Option ℚ) (dfCode : List Row)
    (y m : ℕ) (code : String) : Option Rec :=
  if dfCode.isEmpty then none
  else
    match resolveSpot (dfCode.head?.bind (fun r => r.underlyingClose)) yfClose with
    | none => none
    | some spot =>
      match selectContracts dfCode spot (nextMonthStr y m) with
      | none => none
      | some ((callRow, callStrike), (putRow, putStrike)) =>
        let sigmaCall : Option ℚ := match callRow.callIV with
          | some s => if s ≤ 0 then none else some s
          | none => none
        some
          { code := code
            spot := spot
            month := nextMonthStr y m
            callStrike := callStrike
            callPrice := callRow.callClose
            callTheo := match sigmaCall with
              | some s => bs_call_price (spot : ℝ) (callStrike : ℝ) (30 / 365) 0 (s : ℝ)
              | none => none
            sigmaCall := sigmaCall
            putStrike := putStrike
            putPrice := putRow.putClose
            putTheo := match sigmaCall with
              | some s => bs_put_price (spot : ℝ) (putStrike : ℝ) (30 / 365) 0 (s : ℝ)
              | none => none
            putIV := match putRow.putClose with
              | some p =>
                if 0 < p then
                  implied_vol_put (spot : ℝ) (putStrike : ℝ) (30 / 365) 0 (p : ℝ)
                else none
              | none => none
            assetIV := callRow.baseIV }

/-- One watchlist iteration of `process_one_day`: restrict the chain to the
rows whose 4-character code (`商品コード4桁`, the code column truncated
to 4 characters) matches, then run `processCodeRows`.  `yf` is the external
yfinance collaborator, one optional price per underlying code. -/
noncomputable def processCode (yf : String → Option ℚ) (df : List Row)
    (y m : ℕ) (code : String) : Option Rec :=
  processCodeRows (yf code) (df.filter (fun r => r.productCode.take 4 == code)) y m code

/-- One iteration of the watchlist loop of `process_one_day`: the record,
when one is emitted, is appended to the `records` accumulator; a skipped
underlying (`continue`) leaves it unchanged. -/
noncomputable def loopStep (yf : String → Option ℚ) (df : List Row)
    (y m : ℕ) (acc : List Rec) (code : String) : List Rec :=
  match processCode yf df y m code with
  | none => acc
  | some r => acc ++ [r]

/-- `process_one_day` (source lines 94-190): the `records` accumulator
starts empty and the watchlist is folded through `loopStep`. -/
noncomputable def process_one_day (yf : String → Option ℚ) (df : List Row)
    (y m : ℕ) : List Rec :=
  TARGET_CODES.foldl (loopStep yf df y m) []

/-- `get_stock_price_from_yf` applied to the already-fetched history
`hist` (chronological `(date, close)` pairs, dates as day numbers): keep
the rows dated on or before `tradeDate` and return the close of the last
one, or `None` when none remains. -/
def get_stock_price_from_yf (hist : List (ℤ × ℚ)) (tradeDate : ℤ) : Option ℚ :=
  ((hist.filter (fun p => decide (p.1 ≤ tradeDate))).getLast?).map (fun p => p.2)

/-- What it means for `p` to be the selected contract among candidates `l`
for target strike `t`: `p` occurs in `l` at a position `i`, its strike
distance to `t` is minimal, and every earlier candidate is strictly
farther (first-occurrence tie-break). -/
def nearestSpec (t : ℚ) (l : List (Row × ℚ)) (p : Row × ℚ) : Prop :=
  ∃ i : ℕ, l[i]? = some p ∧ (∀ q ∈ l, |p.2 - t| ≤ |q.2 - t|) ∧
    ∀ j : ℕ, j < i → ∀ q : Row × ℚ, l[j]? = some q → |p.2 - t| < |q.2 - t|

/-- A demonstration chain row for underlying 7203 with expiry 202511,
holding only a strike and the underlying close 100. -/
def mkRow (s : ℚ) : Row :=
  { productCode := "72030000"
    month := "202511"
    strike := some s
    callClose := none
    callIV := none
    putClose := none
    underlyingClose := some 100
    baseIV := none }

/-- The strike ladder [90, 95, 100, 105, 110] of the spec's selection
example. -/
def demoRows : List Row := [mkRow 90, mkRow 95, mkRow 100, mkRow 105, mkRow 110]

/-- The strike ladder [70, 130] of the spec's sanity-band example. -/
def bandRows : List Row := [mkRow 70, mkRow 130]

/-- The record `process_one_day` emits for `demoRows` on 2025-10 for code
7203: strikes 105/95 selected, all optional pricing fields absent because
the demo rows carry no call IV and no put close. -/
def demoRec : Rec :=
  { code := "7203", spot := 100, month := "202511", callStrike := 105,
    callPrice := none, callTheo := none, sigmaCall := none, putStrike := 95,
    putPrice := none, putTheo := none, putIV := none, assetIV := none }

/-- A chain row of an unrelated underlying (code 9999). -/
def junkRow : Row :=
  { productCode := "99990000", month := "190001", strike := none,
    callClose := none, callIV := none, putClose := none,
    underlyingClose := none, baseIV := none }

lemma gaussPdf_pos (x : ℝ) : 0 < gaussPdf x := by
  have h2 : (0:ℝ) < Real.sqrt (2 * Real.pi) :=
    Real.sqrt_pos.mpr (by positivity)
  exact div_pos (Real.exp_pos _) h2

lemma gaussPdf_neg (x : ℝ) : gaussPdf (-x) = gaussPdf x := by
  simp [gaussPdf, neg_sq]

lemma continuous_gaussPdf : Continuous gaussPdf := by
  unfold gaussPdf
  fun_prop

lemma gaussPdf_eq :
    gaussPdf = fun x => Real.exp (-(1/2) * x ^ 2) / Real.sqrt (2 * Real.pi) := by
  funext x
  unfold gaussPdf
  rw [show -(x ^ 2) / 2 = -(1/2) * x ^ 2 by ring]

lemma integrable_gaussPdf : Integrable gaussPdf := by
  rw [gaussPdf_eq]
  exact (integrable_exp_neg_mul_sq (by norm_num : (0:ℝ) < 1/2)).div_const _

lemma integral_gaussPdf : ∫ x, gaussPdf x = 1 := by
  rw [gaussPdf_eq]
  rw [integral_div]
  rw [integral_gaussian]
  rw [show Real.pi / (1/2) = 2 * Real.pi by ring]
  exact div_self (ne_of_gt (Real.sqrt_pos.mpr (by positivity)))

lemma normCdf_eq_intervalIntegral (x : ℝ) :
    normCdf x = (∫ t in (0:ℝ)..x, gaussPdf t) + normCdf 0 := by
  have h := intervalIntegral.integral_Iic_sub_Iic (μ := volume) (f := gaussPdf) (a := 0) (b := x)
    integrable_gaussPdf.integrableOn integrable_gaussPdf.integrableOn
  unfold normCdf
  linarith [h]

lemma hasDerivAt_normCdf (x : ℝ) : HasDerivAt normCdf (gaussPdf x) x := by
  have h : HasDerivAt (fun u => (∫ t in (0:ℝ)..u, gaussPdf t) + normCdf 0)
      (gaussPdf x) x :=
    ((continuous_gaussPdf.integral_hasStrictDerivAt 0 x).hasDerivAt).add_const _
  have hfun : normCdf = fun u => (∫ t in (0:ℝ)..u, gaussPdf t) + normCdf 0 :=
    funext normCdf_eq_intervalIntegral
  rw [hfun]
  exact h

lemma continuous_normCdf : Continuous normCdf :=
  continuous_iff_continuousAt.mpr fun x => (hasDerivAt_normCdf x).continuousAt

lemma normCdf_neg_add (x : ℝ) : normCdf (-x) + normCdf x = 1 := by
  have h1 : normCdf (-x) = ∫ t in Ioi x, gaussPdf t := by
    unfold normCdf
    have h2 : (∫ t in Iic (-x), gaussPdf t) = ∫ t in Iic (-x), gaussPdf (-t) := by
      refine setIntegral_congr_fun measurableSet_Iic fun t _ => ?_
      rw [gaussPdf_neg]
    rw [h2, integral_comp_neg_Iic, neg_neg]
  have h3 := intervalIntegral.integral_Iic_add_Ioi (μ := volume) (f := gaussPdf) (b := x)
    integrable_gaussPdf.integrableOn integrable_gaussPdf.integrableOn
  have h4 := integral_gaussPdf
  rw [h1]
  unfold normCdf
  linarith [h3]

lemma bsCallVal_sub_bsPutVal (S K T r sigma : ℝ) :
    bsCallVal S K T r sigma - bsPutVal S K T r sigma =
      S - K * Real.exp (-r * T) := by
  unfold bsCallVal bsPutVal
  have h1 := normCdf_neg_add (bsD1 S K T r sigma)
  have h2 := normCdf_neg_add (bsD2 S K T r sigma)
  linear_combination S * h1 - K * Real.exp (-r * T) * h2

lemma bs_call_price_pos_eq (S K T r sigma : ℝ) (hS : 0 < S) (hK : 0 < K)
    (hT : 0 < T) (hsig : 0 < sigma) :
    bs_call_price S K T r sigma = some (bsCallVal S K T r sigma) := by
  unfold bs_call_price
  rw [if_neg]
  push_neg
  exact ⟨hS, hK, hT, hsig⟩

lemma bs_put_price_pos_eq (S K T r sigma : ℝ) (hS : 0 < S) (hK : 0 < K)
    (hT : 0 < T) (hsig : 0 < sigma) :
    bs_put_price S K T r sigma = some (bsPutVal S K T r sigma) := by
  unfold bs_put_price
  rw [if_neg]
  push_neg
  exact ⟨hS, hK, hT, hsig⟩

/-- C3: for all positive `S`, `K`, `T`, `sigma` (and any `r`),
`bs_call_price` and `bs_put_price` both return values, and their difference
is exactly `S - K*exp(-r*T)` — in particular within the claimed `1e-6`
tolerance. -/
theorem putCallParity (S K T r sigma : ℝ) (hS : 0 < S) (hK : 0 < K)
    (hT : 0 < T) (hsig : 0 < sigma) :
    ∃ c p : ℝ, bs_call_price S K T r sigma = some c ∧
      bs_put_price S K T r sigma = some p ∧
      c - p = S - K * Real.exp (-r * T) ∧
      |c - p - (S - K * Real.exp (-r * T))| ≤ 1e-6 := by
  refine ⟨bsCallVal S K T r sigma, bsPutVal S K T r sigma,
    bs_call_price_pos_eq S K T r sigma hS hK hT hsig,
    bs_put_price_pos_eq S K T r sigma hS hK hT hsig,
    bsCallVal_sub_bsPutVal S K T r sigma, ?_⟩
  rw [bsCallVal_sub_bsPutVal S K T r sigma]
  norm_num

/-- Witness for C3 at `S = K = T = sigma = 1`, `r = 0`. -/
theorem putCallParity_witness :
    ∃ c p : ℝ, bs_call_price 1 1 1 0 1 = some c ∧
      bs_put_price 1 1 1 0 1 = some p ∧
      c - p = 1 - 1 * Real.exp (-0 * 1) ∧
      |c - p - (1 - 1 * Real.exp (-0 * 1))| ≤ 1e-6 :=
  putCallParity 1 1 1 0 1 one_pos one_pos one_pos one_pos

/-- C4: `bs_call_price` and `bs_put_price` return `none` exactly when one
of `S`, `K`, `T`, `sigma` is non-positive (each boundary case `= 0`
included), and on the all-positive domain they return the Black-Scholes
call and put values. -/
theorem bsDomainGuard :
    (∀ S K T r sigma : ℝ,
      bs_call_price S K T r sigma = none ↔ S ≤ 0 ∨ K ≤ 0 ∨ T ≤ 0 ∨ sigma ≤ 0) ∧
    (∀ S K T r sigma : ℝ,
      bs_put_price S K T r sigma = none ↔ S ≤ 0 ∨ K ≤ 0 ∨ T ≤ 0 ∨ sigma ≤ 0) ∧
    (∀ S K T r sigma : ℝ, 0 < S → 0 < K → 0 < T → 0 < sigma →
      bs_call_price S K T r sigma = some (bsCallVal S K T r sigma) ∧
      bs_put_price S K T r sigma = some (bsPutVal S K T r sigma)) := by
  refine ⟨fun S K T r sigma => ?_, fun S K T r sigma => ?_,
    fun S K T r sigma hS hK hT hsig =>
      ⟨bs_call_price_pos_eq S K T r sigma hS hK hT hsig,
       bs_put_price_pos_eq S K T r sigma hS hK hT hsig⟩⟩ <;>
    · simp only [bs_call_price, bs_put_price]
      split <;> simp_all

/-- Witness for C4: each zero boundary individually yields `none`, and a
fully positive input yields the call/put values. -/
theorem bsDomainGuard_witness :
    bs_call_price 0 1 1 0 1 = none ∧ bs_call_price 1 0 1 0 1 = none ∧
    bs_call_price 1 1 0 0 1 = none ∧ bs_call_price 1 1 1 0 0 = none ∧
    bs_put_price 0 1 1 0 1 = none ∧ bs_put_price 1 0 1 0 1 = none ∧
    bs_put_price 1 1 0 0 1 = none ∧ bs_put_price 1 1 1 0 0 = none ∧
    bs_call_price 1 1 1 0 1 = some (bsCallVal 1 1 1 0 1) ∧
    bs_put_price 1 1 1 0 1 = some (bsPutVal 1 1 1 0 1) :=
  ⟨(bsDomainGuard.1 0 1 1 0 1).mpr (Or.inl le_rfl),
   (bsDomainGuard.1 1 0 1 0 1).mpr (Or.inr (Or.inl le_rfl)),
   (bsDomainGuard.1 1 1 0 0 1).mpr (Or.inr (Or.inr (Or.inl le_rfl))),
   (bsDomainGuard.1 1 1 1 0 0).mpr (Or.inr (Or.inr (Or.inr le_rfl))),
   (bsDomainGuard.2.1 0 1 1 0 1).mpr (Or.inl le_rfl),
   (bsDomainGuard.2.1 1 0 1 0 1).mpr (Or.inr (Or.inl le_rfl)),
   (bsDomainGuard.2.1 1 1 0 0 1).mpr (Or.inr (Or.inr (Or.inl le_rfl))),
   (bsDomainGuard.2.1 1 1 1 0 0).mpr (Or.inr (Or.inr (Or.inr le_rfl))),
   (bsDomainGuard.2.2 1 1 1 0 1 one_pos one_pos one_pos one_pos).1,
   (bsDomainGuard.2.2 1 1 1 0 1 one_pos one_pos one_pos one_pos).2⟩

lemma bsD_sq_diff (S K T r sigma : ℝ) (hT : 0 < T) (hsig : sigma ≠ 0) :
    bsD1 S K T r sigma ^ 2 - bsD2 S K T r sigma ^ 2 =
      2 * (Real.log (S / K) + r * T) := by
  have hs : (0:ℝ) < Real.sqrt T := Real.sqrt_pos.mpr hT
  simp only [bsD2, bsD1]
  set s := Real.sqrt T with hsdef
  have hs2 : s ^ 2 = T := Real.sq_sqrt hT.le
  rw [← hs2]
  field_simp
  ring

lemma gauss_identity (S K T r sigma : ℝ) (hS : 0 < S) (hK : 0 < K)
    (hT : 0 < T) (hsig : sigma ≠ 0) :
    S * gaussPdf (bsD1 S K T r sigma) =
      K * Real.exp (-r * T) * gaussPdf (bsD2 S K T r sigma) := by
  have hdd := bsD_sq_diff S K T r sigma hT hsig
  have hexp : S * Real.exp (-(bsD1 S K T r sigma ^ 2) / 2) =
      K * Real.exp (-r * T) * Real.exp (-(bsD2 S K T r sigma ^ 2) / 2) := by
    have h1 : -(bsD1 S K T r sigma ^ 2) / 2 =
        -(bsD2 S K T r sigma ^ 2) / 2 - Real.log (S / K) - r * T := by
      linarith [hdd]
    rw [h1, Real.exp_sub, Real.exp_sub, Real.exp_log (div_pos hS hK), neg_mul,
      Real.exp_neg]
    field_simp
    ring
  unfold gaussPdf
  calc S * (Real.exp (-(bsD1 S K T r sigma ^ 2) / 2) / Real.sqrt (2 * Real.pi))
      = S * Real.exp (-(bsD1 S K T r sigma ^ 2) / 2) / Real.sqrt (2 * Real.pi) := by
        ring
    _ = K * Real.exp (-r * T) * Real.exp (-(bsD2 S K T r sigma ^ 2) / 2) /
          Real.sqrt (2 * Real.pi) := by rw [hexp]
    _ = K * Real.exp (-r * T) *
          (Real.exp (-(bsD2 S K T r sigma ^ 2) / 2) / Real.sqrt (2 * Real.pi)) := by
        ring

lemma hasDerivAt_bsD1 (S K T r : ℝ) (hT : 0 < T) {sigma : ℝ} (hsig : 0 < sigma) :
    HasDerivAt (fun x => bsD1 S K T r x)
      ((sigma * T * (sigma * Real.sqrt T) -
          (Real.log (S / K) + (r + 0.5 * sigma ^ 2) * T) * Real.sqrt T) /
        (sigma * Real.sqrt T) ^ 2) sigma := by
  have hs : (0:ℝ) < Real.sqrt T := Real.sqrt_pos.mpr hT
  have hnum : HasDerivAt (fun x : ℝ => Real.log (S / K) + (r + 0.5 * x ^ 2) * T)
      (sigma * T) sigma := by
    have h1 : HasDerivAt (fun x : ℝ => x ^ 2) (2 * sigma) sigma := by
      simpa using hasDerivAt_pow 2 sigma
    have h3 := (((h1.const_mul (0.5:ℝ)).const_add r).mul_const T).const_add
      (Real.log (S / K))
    convert h3 using 1
    ring
  have hden : HasDerivAt (fun x : ℝ => x * Real.sqrt T) (Real.sqrt T) sigma := by
    simpa using (hasDerivAt_id sigma).mul_const (Real.sqrt T)
  have h := hnum.div hden (by positivity)
  simpa only [bsD1] using h

lemma hasDerivAt_bsPutVal (S K T r : ℝ) (hS : 0 < S) (hK : 0 < K) (hT : 0 < T)
    {sigma : ℝ} (hsig : 0 < sigma) :
    HasDerivAt (fun x => bsPutVal S K T r x)
      (S * gaussPdf (bsD1 S K T r sigma) * Real.sqrt T) sigma := by
  have hs : (0:ℝ) < Real.sqrt T := Real.sqrt_pos.mpr hT
  obtain ⟨D1, hd1⟩ : ∃ v, HasDerivAt (fun x => bsD1 S K T r x) v sigma :=
    ⟨_, hasDerivAt_bsD1 S K T r hT hsig⟩
  have hd2 : HasDerivAt (fun x => bsD2 S K T r x) (D1 - Real.sqrt T) sigma := by
    have h := hd1.sub ((hasDerivAt_id sigma).mul_const (Real.sqrt T))
    simpa [bsD2] using h
  have hc2 : HasDerivAt (fun x => normCdf (-bsD2 S K T r x))
      (gaussPdf (-bsD2 S K T r sigma) * -(D1 - Real.sqrt T)) sigma := by
    have h := (hasDerivAt_normCdf (-bsD2 S K T r sigma)).comp sigma hd2.neg
    simpa [Function.comp] using h
  have hc1 : HasDerivAt (fun x => normCdf (-bsD1 S K T r x))
      (gaussPdf (-bsD1 S K T r sigma) * -D1) sigma := by
    have h := (hasDerivAt_normCdf (-bsD1 S K T r sigma)).comp sigma hd1.neg
    simpa [Function.comp] using h
  have h := (hc2.const_mul (K * Real.exp (-r * T))).sub (hc1.const_mul S)
  have hfun : (fun x => bsPutVal S K T r x) =
      fun x => K * Real.exp (-r * T) * normCdf (-bsD2 S K T r x) -
        S * normCdf (-bsD1 S K T r x) := by
    funext x
    rfl
  rw [hfun]
  convert h using 1
  rw [gaussPdf_neg, gaussPdf_neg]
  linear_combination (Real.sqrt T - D1) * gauss_identity S K T r sigma hS hK hT hsig.ne'

lemma bsPutVal_strictMonoOn (S K T r : ℝ) (hS : 0 < S) (hK : 0 < K) (hT : 0 < T) :
    StrictMonoOn (fun sigma => bsPutVal S K T r sigma) (Ioi 0) := by
  apply strictMonoOn_of_deriv_pos (convex_Ioi 0)
  · intro x hx
    exact (hasDerivAt_bsPutVal S K T r hS hK hT (mem_Ioi.mp hx)).continuousAt.continuousWithinAt
  · intro x hx
    rw [interior_Ioi] at hx
    rw [(hasDerivAt_bsPutVal S K T r hS hK hT (mem_Ioi.mp hx)).deriv]
    exact mul_pos (mul_pos hS (gaussPdf_pos _)) (Real.sqrt_pos.mpr hT)

lemma bsPutVal_continuousOn (S K T r : ℝ) (hS : 0 < S) (hK : 0 < K) (hT : 0 < T) :
    ContinuousOn (fun sigma => bsPutVal S K T r sigma) (Icc 0.0001 3) :=
  fun x hx =>
    (hasDerivAt_bsPutVal S K T r hS hK hT
      (lt_of_lt_of_le (by norm_num) hx.1)).continuousAt.continuousWithinAt

lemma brentq_of_eq_some {f : ℝ → ℝ} {a b x : ℝ} (h : brentq f a b = some x) :
    x ∈ Icc a b ∧ f x = 0 := by
  unfold brentq at h
  split at h
  · next hc =>
      obtain rfl : hc.2.choose = x := by injection h
      exact hc.2.choose_spec
  · exact absurd h (by simp)

lemma brentq_none {f : ℝ → ℝ} {a b : ℝ} (h : ¬ f a * f b ≤ 0) :
    brentq f a b = none := by
  unfold brentq
  rw [dif_neg]
  exact fun hc => h hc.1

lemma brentq_some {f : ℝ → ℝ} {a b : ℝ} (hab : a ≤ b)
    (hc : ContinuousOn f (Icc a b)) (hsign : f a * f b ≤ 0) :
    ∃ x, brentq f a b = some x ∧ x ∈ Icc a b ∧ f x = 0 := by
  have hex : ∃ x ∈ Icc a b, f x = 0 := by
    rcases mul_nonpos_iff.mp hsign with ⟨h1, h2⟩ | ⟨h1, h2⟩
    · obtain ⟨x, hx, hfx⟩ := intermediate_value_Icc' hab hc ⟨h2, h1⟩
      exact ⟨x, hx, hfx⟩
    · obtain ⟨x, hx, hfx⟩ := intermediate_value_Icc hab hc ⟨h1, h2⟩
      exact ⟨x, hx, hfx⟩
  unfold brentq
  rw [dif_pos ⟨hsign, hex⟩]
  exact ⟨hex.choose, rfl, hex.choose_spec⟩

lemma implied_vol_put_none_of_nonpos {S K T r p : ℝ}
    (h : S ≤ 0 ∨ K ≤ 0 ∨ T ≤ 0) : implied_vol_put S K T r p = none := by
  unfold implied_vol_put
  rw [if_neg]
  rintro ⟨h1, h2, h3⟩
  rcases h with h | h | h <;> linarith

lemma implied_vol_put_some_char {S K T r p sigma : ℝ}
    (h : implied_vol_put S K T r p = some sigma) :
    (0 < S ∧ 0 < K ∧ 0 < T) ∧ sigma ∈ Icc (0.0001:ℝ) 3 ∧
      bsPutVal S K T r sigma = p := by
  unfold implied_vol_put at h
  split at h
  · next hpos =>
      obtain ⟨hmem, hroot⟩ := brentq_of_eq_some h
      exact ⟨hpos, hmem, by linarith [sub_eq_zero.mp hroot]⟩
  · exact absurd h (by simp)

lemma implied_vol_put_success {S K T r p : ℝ} (hS : 0 < S) (hK : 0 < K)
    (hT : 0 < T)
    (hsign : (bsPutVal S K T r 0.0001 - p) * (bsPutVal S K T r 3 - p) ≤ 0) :
    ∃ sigma, implied_vol_put S K T r p = some sigma ∧
      sigma ∈ Icc (0.0001:ℝ) 3 ∧ bsPutVal S K T r sigma = p := by
  have hcont : ContinuousOn (fun sigma => bsPutVal S K T r sigma - p)
      (Icc 0.0001 3) := (bsPutVal_continuousOn S K T r hS hK hT).sub continuousOn_const
  obtain ⟨x, hx, hmem, hroot⟩ :=
    brentq_some (by norm_num : (0.0001:ℝ) ≤ 3) hcont hsign
  refine ⟨x, ?_, hmem, by linarith [sub_eq_zero.mp hroot]⟩
  unfold implied_vol_put
  rw [if_pos ⟨hS, hK, hT⟩]
  exact hx

/-- C1: `implied_vol_put` returns some `sigma ∈ [0.0001, 3]` with
`bs_put_price(S,K,T,r,sigma) = market_price` whenever a root is bracketed
on that interval (the endpoint values of the objective do not share a
strict sign); it returns `none` — never an error — when the bracketing test
fails, when the Black-Scholes evaluation itself fails (some of `S`, `K`,
`T` non-positive), and in particular whenever `market_price` lies outside
the range of put values achievable for `sigma ∈ [0.0001, 3]`. -/
theorem implied_vol_put_spec (S K T r p : ℝ) :
    (0 < S → 0 < K → 0 < T →
      (bsPutVal S K T r 0.0001 - p) * (bsPutVal S K T r 3 - p) ≤ 0 →
      ∃ sigma, implied_vol_put S K T r p = some sigma ∧
        sigma ∈ Icc (0.0001:ℝ) 3 ∧ bs_put_price S K T r sigma = some p) ∧
    (0 < S → 0 < K → 0 < T →
      0 < (bsPutVal S K T r 0.0001 - p) * (bsPutVal S K T r 3 - p) →
      implied_vol_put S K T r p = none) ∧
    (S ≤ 0 ∨ K ≤ 0 ∨ T ≤ 0 → implied_vol_put S K T r p = none) ∧
    (0 < S → 0 < K → 0 < T →
      (p < bsPutVal S K T r 0.0001 ∨ bsPutVal S K T r 3 < p) →
      implied_vol_put S K T r p = none) := by
  refine ⟨fun hS hK hT hsign => ?_, fun hS hK hT hpos => ?_,
    implied_vol_put_none_of_nonpos, fun hS hK hT hout => ?_⟩
  · obtain ⟨x, hx, hmem, hroot⟩ := implied_vol_put_success hS hK hT hsign
    refine ⟨x, hx, hmem, ?_⟩
    rw [bs_put_price_pos_eq S K T r x hS hK hT (by linarith [hmem.1]), hroot]
  · unfold implied_vol_put
    rw [if_pos ⟨hS, hK, hT⟩]
    apply brentq_none
    linarith
  · have hmono := bsPutVal_strictMonoOn S K T r hS hK hT
    have hab : bsPutVal S K T r 0.0001 < bsPutVal S K T r 3 :=
      hmono (mem_Ioi.mpr (by norm_num)) (mem_Ioi.mpr (by norm_num)) (by norm_num)
    unfold implied_vol_put
    rw [if_pos ⟨hS, hK, hT⟩]
    apply brentq_none
    push_neg
    rcases hout with h | h
    · exact mul_pos (by linarith) (by linarith)
    · exact mul_pos_of_neg_of_neg (by linarith) (by linarith)

/-- Witness for C1: at `S = K = T = 1`, `r = 0` the price
`bs_put_price(1,1,1,0,1)` is bracketed, and the inversion recovers a root. -/
theorem implied_vol_put_spec_witness :
    ∃ sigma, implied_vol_put 1 1 1 0 (bsPutVal 1 1 1 0 1) = some sigma ∧
      sigma ∈ Icc (0.0001:ℝ) 3 ∧
      bs_put_price 1 1 1 0 sigma = some (bsPutVal 1 1 1 0 1) :=
  (implied_vol_put_spec 1 1 1 0 (bsPutVal 1 1 1 0 1)).1 one_pos one_pos one_pos
    (by
      have hmono := bsPutVal_strictMonoOn 1 1 1 0 one_pos one_pos one_pos
      have h1 : bsPutVal 1 1 1 0 0.0001 < bsPutVal 1 1 1 0 1 :=
        hmono (mem_Ioi.mpr (by norm_num)) (mem_Ioi.mpr one_pos) (by norm_num)
      have h2 : bsPutVal 1 1 1 0 1 < bsPutVal 1 1 1 0 3 :=
        hmono (mem_Ioi.mpr one_pos) (mem_Ioi.mpr (by norm_num)) (by norm_num)
      exact mul_nonpos_iff.mpr (Or.inr ⟨by linarith, by linarith⟩))

/-- Counterexample to C2 as stated: `sigma0 = 0.00005` lies in the open
interval `(0, 3)` and prices to `bs_put_price(1,1,1,0,0.00005)`, but the
root of the inversion objective lies strictly below the bracket
`[0.0001, 3]`, so brentq fails its bracketing test and `implied_vol_put`
returns `none` instead of a `sigma` near `0.00005`. -/
theorem roundTrip_cex :
    (0:ℝ) < 0.00005 ∧ (0.00005:ℝ) < 3 ∧
    bs_put_price 1 1 1 0 0.00005 = some (bsPutVal 1 1 1 0 0.00005) ∧
    implied_vol_put 1 1 1 0 (bsPutVal 1 1 1 0 0.00005) = none := by
  refine ⟨by norm_num, by norm_num,
    bs_put_price_pos_eq 1 1 1 0 0.00005 one_pos one_pos one_pos (by norm_num), ?_⟩
  have hmono := bsPutVal_strictMonoOn 1 1 1 0 one_pos one_pos one_pos
  have h1 : bsPutVal 1 1 1 0 0.00005 < bsPutVal 1 1 1 0 0.0001 :=
    hmono (mem_Ioi.mpr (by norm_num)) (mem_Ioi.mpr (by norm_num)) (by norm_num)
  have h2 : bsPutVal 1 1 1 0 0.0001 < bsPutVal 1 1 1 0 3 :=
    hmono (mem_Ioi.mpr (by norm_num)) (mem_Ioi.mpr (by norm_num)) (by norm_num)
  unfold implied_vol_put
  rw [if_pos ⟨one_pos, one_pos, one_pos⟩]
  apply brentq_none
  push_neg
  exact mul_pos (by linarith) (by linarith)

/-- C2 (amended): the round-trip holds for `sigma0` in `[0.0001, 3)` — the
part of the claimed interval `(0, 3)` on which the root stays inside the
brentq bracket — and it is exact (`some sigma0` itself, hence within the
claimed `1e-4` tolerance). -/
theorem roundTrip (S K T r sigma0 p : ℝ) (hS : 0 < S) (hK : 0 < K)
    (hT : 0 < T) (h1 : 0.0001 ≤ sigma0) (h2 : sigma0 < 3)
    (hp : bs_put_price S K T r sigma0 = some p) :
    implied_vol_put S K T r p = some sigma0 := by
  have hs0 : (0:ℝ) < sigma0 := by linarith
  have hval : bsPutVal S K T r sigma0 = p := by
    rw [bs_put_price_pos_eq S K T r sigma0 hS hK hT hs0] at hp
    injection hp
  have hmono := bsPutVal_strictMonoOn S K T r hS hK hT
  have ha : bsPutVal S K T r 0.0001 ≤ bsPutVal S K T r sigma0 := by
    rcases eq_or_lt_of_le h1 with he | hl
    · rw [he]
    · exact (hmono (mem_Ioi.mpr (by norm_num)) (mem_Ioi.mpr hs0) hl).le
  have hb : bsPutVal S K T r sigma0 < bsPutVal S K T r 3 :=
    hmono (mem_Ioi.mpr hs0) (mem_Ioi.mpr (by norm_num)) h2
  have hsign : (bsPutVal S K T r 0.0001 - p) * (bsPutVal S K T r 3 - p) ≤ 0 :=
    mul_nonpos_iff.mpr (Or.inr ⟨by linarith, by linarith⟩)
  obtain ⟨x, hx, hmem, hroot⟩ := implied_vol_put_success hS hK hT hsign
  have hxeq : x = sigma0 := by
    apply hmono.injOn (mem_Ioi.mpr (by linarith [hmem.1])) (mem_Ioi.mpr hs0)
    exact hroot.trans hval.symm
  rw [hx, hxeq]

/-- Witness for C2 (amended) at `S = K = T = 1`, `r = 0`, `sigma0 = 1`. -/
theorem roundTrip_witness :
    implied_vol_put 1 1 1 0 (bsPutVal 1 1 1 0 1) = some 1 :=
  roundTrip 1 1 1 0 1 (bsPutVal 1 1 1 0 1) one_pos one_pos one_pos
    (by norm_num) (by norm_num)
    (bs_put_price_pos_eq 1 1 1 0 1 one_pos one_pos one_pos one_pos)

/-- C10: for positive `S`, `K`, `T` the put price is strictly increasing in
`sigma` over `sigma > 0`; hence `bs_put_price = market_price` has at most
one solution in `[0.0001, 3]`, and a `sigma` returned by `implied_vol_put`
is the unique implied volatility in that bracket. -/
theorem bsPutMonotoneUnique :
    (∀ S K T r sigma1 sigma2 p1 p2 : ℝ, 0 < S → 0 < K → 0 < T →
      0 < sigma1 → sigma1 < sigma2 →
      bs_put_price S K T r sigma1 = some p1 →
      bs_put_price S K T r sigma2 = some p2 → p1 < p2) ∧
    (∀ S K T r p sigma1 sigma2 : ℝ, 0 < S → 0 < K → 0 < T →
      sigma1 ∈ Icc (0.0001:ℝ) 3 → sigma2 ∈ Icc (0.0001:ℝ) 3 →
      bs_put_price S K T r sigma1 = some p →
      bs_put_price S K T r sigma2 = some p → sigma1 = sigma2) ∧
    (∀ S K T r p sigma : ℝ, implied_vol_put S K T r p = some sigma →
      ∀ sigma' : ℝ, sigma' ∈ Icc (0.0001:ℝ) 3 →
      bs_put_price S K T r sigma' = some p → sigma' = sigma) := by
  refine ⟨fun S K T r sigma1 sigma2 p1 p2 hS hK hT hpos hlt hp1 hp2 => ?_,
    fun S K T r p sigma1 sigma2 hS hK hT hm1 hm2 hp1 hp2 => ?_,
    fun S K T r p sigma hiv sigma' hm' hp' => ?_⟩
  · rw [bs_put_price_pos_eq S K T r sigma1 hS hK hT hpos] at hp1
    rw [bs_put_price_pos_eq S K T r sigma2 hS hK hT (by linarith)] at hp2
    injection hp1 with hp1
    injection hp2 with hp2
    rw [← hp1, ← hp2]
    exact bsPutVal_strictMonoOn S K T r hS hK hT (mem_Ioi.mpr hpos)
      (mem_Ioi.mpr (by linarith)) hlt
  · rw [bs_put_price_pos_eq S K T r sigma1 hS hK hT (by linarith [hm1.1])] at hp1
    rw [bs_put_price_pos_eq S K T r sigma2 hS hK hT (by linarith [hm2.1])] at hp2
    injection hp1 with hp1
    injection hp2 with hp2
    exact (bsPutVal_strictMonoOn S K T r hS hK hT).injOn
      (mem_Ioi.mpr (by linarith [hm1.1])) (mem_Ioi.mpr (by linarith [hm2.1]))
      (hp1.trans hp2.symm)
  · obtain ⟨⟨hS, hK, hT⟩, hmem, hroot⟩ := implied_vol_put_some_char hiv
    rw [bs_put_price_pos_eq S K T r sigma' hS hK hT (by linarith [hm'.1])] at hp'
    injection hp' with hp'
    exact (bsPutVal_strictMonoOn S K T r hS hK hT).injOn
      (mem_Ioi.mpr (by linarith [hm'.1])) (mem_Ioi.mpr (by linarith [hmem.1]))
      (hp'.trans hroot.symm)

/-- Witness for C10: strict monotonicity applied at `sigma = 1 < 2`. -/
theorem bsPutMonotoneUnique_witness :
    bsPutVal 1 1 1 0 1 < bsPutVal 1 1 1 0 2 :=
  bsPutMonotoneUnique.1 1 1 1 0 1 2 (bsPutVal 1 1 1 0 1) (bsPutVal 1 1 1 0 2)
    one_pos one_pos one_pos one_pos one_lt_two
    (bs_put_price_pos_eq 1 1 1 0 1 one_pos one_pos one_pos one_pos)
    (bs_put_price_pos_eq 1 1 1 0 2 one_pos one_pos one_pos two_pos)

lemma foldl_pick_spec (t : ℚ) (ys : List (Row × ℚ)) (b : Row × ℚ) :
    ∃ i : ℕ,
      (b :: ys)[i]? =
        some (ys.foldl (fun a y => if |y.2 - t| < |a.2 - t| then y else a) b) ∧
      (∀ q ∈ b :: ys,
        |(ys.foldl (fun a y => if |y.2 - t| < |a.2 - t| then y else a) b).2 - t| ≤
          |q.2 - t|) ∧
      ∀ j : ℕ, j < i → ∀ q : Row × ℚ, (b :: ys)[j]? = some q →
        |(ys.foldl (fun a y => if |y.2 - t| < |a.2 - t| then y else a) b).2 - t| <
          |q.2 - t| := by
  induction ys generalizing b with
  | nil =>
    refine ⟨0, rfl, ?_, ?_⟩
    · intro q hq
      simp only [List.foldl_nil]
      rcases List.mem_cons.mp hq with rfl | hq
      · exact le_refl _
      · exact absurd hq (List.not_mem_nil q)
    · intro j hj
      omega
  | cons y ys ih =>
    simp only [List.foldl_cons]
    by_cases hlt : |y.2 - t| < |b.2 - t|
    · rw [if_pos hlt]
      obtain ⟨i, hidx, hmin, hstrict⟩ := ih y
      refine ⟨i + 1, by simpa using hidx, ?_, ?_⟩
      · intro q hq
        rcases List.mem_cons.mp hq with rfl | hq
        · exact le_of_lt (lt_of_le_of_lt (hmin y (List.mem_cons_self y ys)) hlt)
        · exact hmin q hq
      · intro j hj q hq
        match j with
        | 0 =>
          obtain rfl : b = q := by simpa using hq
          exact lt_of_le_of_lt (hmin y (List.mem_cons_self y ys)) hlt
        | j + 1 =>
          exact hstrict j (by omega) q (by simpa using hq)
    · rw [if_neg hlt]
      have hle : |b.2 - t| ≤ |y.2 - t| := not_lt.mp hlt
      obtain ⟨i, hidx, hmin, hstrict⟩ := ih b
      match i, hidx, hstrict with
      | 0, hidx, hstrict =>
        refine ⟨0, by simpa using hidx, ?_, ?_⟩
        · intro q hq
          rcases List.mem_cons.mp hq with h1 | hq2
          · rw [h1]
            exact hmin b (List.mem_cons_self _ _)
          · rcases List.mem_cons.mp hq2 with h2 | hq3
            · rw [h2]
              exact le_trans (hmin b (List.mem_cons_self _ _)) hle
            · exact hmin q (List.mem_cons_of_mem _ hq3)
        · intro j hj
          omega
      | k + 1, hidx, hstrict =>
        have hb : |(ys.foldl (fun a y => if |y.2 - t| < |a.2 - t| then y else a) b).2 - t| <
            |b.2 - t| :=
          hstrict 0 (Nat.succ_pos k) b (by simp)
        refine ⟨k + 2, by simpa using hidx, ?_, ?_⟩
        · intro q hq
          rcases List.mem_cons.mp hq with h1 | hq2
          · rw [h1]
            exact hmin b (List.mem_cons_self _ _)
          · rcases List.mem_cons.mp hq2 with h2 | hq3
            · rw [h2]
              exact le_trans (hmin b (List.mem_cons_self _ _)) hle
            · exact hmin q (List.mem_cons_of_mem _ hq3)
        · intro j hj q hq
          match j with
          | 0 =>
            obtain rfl : b = q := by simpa using hq
            exact hb
          | 1 =>
            obtain rfl : y = q := by simpa using hq
            exact lt_of_lt_of_le hb hle
          | l + 2 =>
            exact hstrict (l + 1) (by omega) q (by simpa using hq)

lemma pickNearest_spec {t : ℚ} {l : List (Row × ℚ)} {p : Row × ℚ}
    (h : pickNearest t l = some p) : nearestSpec t l p := by
  match l with
  | [] => exact absurd h (by simp [pickNearest])
  | x :: xs =>
    unfold pickNearest at h
    injection h with h
    obtain ⟨i, hidx, hmin, hstrict⟩ := foldl_pick_spec t xs x
    rw [h] at hidx hmin hstrict
    exact ⟨i, hidx, hmin, hstrict⟩

lemma selectContracts_some_inv {dfCode : List Row} {spot : ℚ} {nm : String}
    {c p : Row × ℚ} (h : selectContracts dfCode spot nm = some (c, p)) :
    pickNearest (spot * 1.05)
      (strikeRows (dfCode.filter (fun r => pdStrip r.month == nm))) = some c ∧
    pickNearest (spot * 0.95)
      (strikeRows (dfCode.filter (fun r => pdStrip r.month == nm))) = some p ∧
    |c.2 - spot| / spot ≤ 0.20 ∧ |p.2 - spot| / spot ≤ 0.20 := by
  simp only [selectContracts] at h
  by_cases hemp : (dfCode.filter (fun r => pdStrip r.month == nm)).isEmpty
  · rw [if_pos hemp] at h
    exact absurd h (by simp)
  · rw [if_neg hemp] at h
    rcases hpc : pickNearest (spot * 1.05)
        (strikeRows (dfCode.filter (fun r => pdStrip r.month == nm))) with _ | c'
    · rw [hpc] at h
      exact absurd h (by simp)
    · rcases hpp : pickNearest (spot * 0.95)
          (strikeRows (dfCode.filter (fun r => pdStrip r.month == nm))) with _ | p'
      · rw [hpc, hpp] at h
        exact absurd h (by simp)
      · rw [hpc, hpp] at h
        dsimp only at h
        by_cases h1 : (0.20 : ℚ) < |c'.2 - spot| / spot
        · rw [if_pos h1] at h
          exact absurd h (by simp)
        · rw [if_neg h1] at h
          by_cases h2 : (0.20 : ℚ) < |p'.2 - spot| / spot
          · rw [if_pos h2] at h
            exact absurd h (by simp)
          · rw [if_neg h2] at h
            injection h with h
            rw [Prod.mk.injEq] at h
            obtain ⟨rfl, rfl⟩ := h
            exact ⟨rfl, rfl, not_lt.mp h1, not_lt.mp h2⟩

lemma processCodeRows_some_inv {yfClose : Option ℚ} {dfCode : List Row}
    {y m : ℕ} {code : String} {rec : Rec}
    (h : processCodeRows yfClose dfCode y m code = some rec) :
    ∃ callRow putRow : Row,
      resolveSpot (dfCode.head?.bind (fun r => r.underlyingClose)) yfClose =
        some rec.spot ∧
      selectContracts dfCode rec.spot (nextMonthStr y m) =
        some ((callRow, rec.callStrike), (putRow, rec.putStrike)) ∧
      rec.code = code ∧
      rec.month = nextMonthStr y m ∧
      rec.callPrice = callRow.callClose ∧
      rec.sigmaCall = (match callRow.callIV with
        | some s => if s ≤ 0 then none else some s
        | none => none) ∧
      rec.callTheo = (match rec.sigmaCall with
        | some s => bs_call_price (rec.spot : ℝ) (rec.callStrike : ℝ) (30 / 365) 0 (s : ℝ)
        | none => none) ∧
      rec.putTheo = (match rec.sigmaCall with
        | some s => bs_put_price (rec.spot : ℝ) (rec.putStrike : ℝ) (30 / 365) 0 (s : ℝ)
        | none => none) ∧
      rec.putPrice = putRow.putClose ∧
      rec.putIV = (match putRow.putClose with
        | some p =>
          if 0 < p then
            implied_vol_put (rec.spot : ℝ) (rec.putStrike : ℝ) (30 / 365) 0 (p : ℝ)
          else none
        | none => none) ∧
      rec.assetIV = callRow.baseIV := by
  simp only [processCodeRows] at h
  by_cases hemp : dfCode.isEmpty
  · rw [if_pos hemp] at h
    exact absurd h (by simp)
  · rw [if_neg hemp] at h
    rcases hsp : resolveSpot (dfCode.head?.bind fun r => r.underlyingClose) yfClose
      with _ | spot
    · rw [hsp] at h
      exact absurd h (by simp)
    · rw [hsp] at h
      dsimp only at h
      rcases hsel : selectContracts dfCode spot (nextMonthStr y m) with _ | sel
      · rw [hsel] at h
        exact absurd h (by simp)
      · obtain ⟨⟨callRow, callStrike⟩, putRow, putStrike⟩ := sel
        rw [hsel] at h
        dsimp only at h
        injection h with h
        subst h
        exact ⟨callRow, putRow, rfl, hsel, rfl, rfl, rfl, rfl, rfl, rfl, rfl, rfl, rfl⟩

lemma demo_select_eq :
    selectContracts demoRows 100 "202511" = some ((mkRow 105, 105), (mkRow 95, 95)) := by
  have hfil : demoRows.filter (fun r => pdStrip r.month == "202511") = demoRows := by
    decide
  simp only [selectContracts, hfil]
  norm_num [pickNearest, strikeRows, demoRows, mkRow, List.filterMap]

lemma band_select_eq : selectContracts bandRows 100 "202511" = none := by
  have hfil : bandRows.filter (fun r => pdStrip r.month == "202511") = bandRows := by
    decide
  simp only [selectContracts, hfil]
  norm_num [pickNearest, strikeRows, bandRows, mkRow, List.filterMap]

lemma demo_processCode_eq :
    processCode (fun _ => none) demoRows 2025 10 "7203" = some demoRec := by
  have hfil2 : demoRows.filter (fun r => r.productCode.take 4 == "7203") = demoRows := by
    decide
  have hnm : nextMonthStr 2025 10 = "202511" := by decide
  have hspot :
      resolveSpot (demoRows.head?.bind (fun r => r.underlyingClose)) none = some 100 := by
    norm_num [demoRows, mkRow, resolveSpot]
  have hemp : demoRows.isEmpty = false := by decide
  simp only [processCode, hfil2, processCodeRows, hemp, Bool.false_eq_true,
    if_false, hnm, hspot, demo_select_eq]
  norm_num [mkRow, demoRec]

lemma band_processCode_eq :
    processCode (fun _ => none) bandRows 2025 10 "7203" = none := by
  have hfil2 : bandRows.filter (fun r => r.productCode.take 4 == "7203") = bandRows := by
    decide
  have hnm : nextMonthStr 2025 10 = "202511" := by decide
  have hspot :
      resolveSpot (bandRows.head?.bind (fun r => r.underlyingClose)) none = some 100 := by
    norm_num [bandRows, mkRow, resolveSpot]
  have hemp : bandRows.isEmpty = false := by decide
  simp only [processCode, hfil2, processCodeRows, hemp, Bool.false_eq_true,
    if_false, hnm, hspot, band_select_eq]

lemma processCode_some_inv {yf : String → Option ℚ} {df : List Row}
    {y m : ℕ} {code : String} {rec : Rec}
    (h : processCode yf df y m code = some rec) :
    ∃ callRow putRow : Row,
      resolveSpot ((df.filter (fun r => r.productCode.take 4 == code)).head?.bind
          (fun r => r.underlyingClose)) (yf code) = some rec.spot ∧
      selectContracts (df.filter (fun r => r.productCode.take 4 == code))
          rec.spot (nextMonthStr y m) =
        some ((callRow, rec.callStrike), (putRow, rec.putStrike)) ∧
      rec.code = code ∧
      rec.month = nextMonthStr y m ∧
      rec.callPrice = callRow.callClose ∧
      rec.sigmaCall = (match callRow.callIV with
        | some s => if s ≤ 0 then none else some s
        | none => none) ∧
      rec.callTheo = (match rec.sigmaCall with
        | some s => bs_call_price (rec.spot : ℝ) (rec.callStrike : ℝ) (30 / 365) 0 (s : ℝ)
        | none => none) ∧
      rec.putTheo = (match rec.sigmaCall with
        | some s => bs_put_price (rec.spot : ℝ) (rec.putStrike : ℝ) (30 / 365) 0 (s : ℝ)
        | none => none) ∧
      rec.putPrice = putRow.putClose ∧
      rec.putIV = (match putRow.putClose with
        | some p =>
          if 0 < p then
            implied_vol_put (rec.spot : ℝ) (rec.putStrike : ℝ) (30 / 365) 0 (p : ℝ)
          else none
        | none => none) ∧
      rec.assetIV = callRow.baseIV :=
  processCodeRows_some_inv (by simpa only [processCode] using h)

/-- C5: whenever the selector returns a call/put pair, each leg is a row of
the chain restricted to the target expiry with a parsable strike, its
strike distance to `spot*1.05` (call) resp. `spot*0.95` (put) is minimal,
and every earlier candidate is strictly farther (first-occurrence
tie-break); an emitted record carries the expiry one calendar month after
the trade date and strikes produced by exactly that selection; and on the
strike ladder [90,95,100,105,110] with spot 100 the selector picks
strike 105 for the call and 95 for the put. -/
theorem contractSelection :
    (∀ (dfCode : List Row) (spot : ℚ) (nm : String) (c p : Row × ℚ),
      selectContracts dfCode spot nm = some (c, p) →
      nearestSpec (spot * 1.05)
        (strikeRows (dfCode.filter (fun r => pdStrip r.month == nm))) c ∧
      nearestSpec (spot * 0.95)
        (strikeRows (dfCode.filter (fun r => pdStrip r.month == nm))) p) ∧
    (∀ (yf : String → Option ℚ) (df : List Row) (y m : ℕ) (code : String) (rec : Rec),
      processCode yf df y m code = some rec →
      rec.month = nextMonthStr y m ∧
      ∃ cr pr : Row,
        selectContracts (df.filter (fun r => r.productCode.take 4 == code))
            rec.spot (nextMonthStr y m) =
          some ((cr, rec.callStrike), (pr, rec.putStrike))) ∧
    selectContracts demoRows 100 "202511" =
      some ((mkRow 105, 105), (mkRow 95, 95)) := by
  refine ⟨fun dfCode spot nm c p h => ?_, fun yf df y m code rec h => ?_,
    demo_select_eq⟩
  · obtain ⟨hc, hp, _, _⟩ := selectContracts_some_inv h
    exact ⟨pickNearest_spec hc, pickNearest_spec hp⟩
  · obtain ⟨cr, pr, _, hsel, _, hmonth, _⟩ := processCode_some_inv h
    exact ⟨hmonth, cr, pr, hsel⟩

/-- Witness for C5 on the demonstration ladder: both selected legs satisfy
the nearest-strike specification. -/
theorem contractSelection_witness :
    nearestSpec (100 * 1.05)
      (strikeRows (demoRows.filter (fun r => pdStrip r.month == "202511")))
      (mkRow 105, 105) ∧
    nearestSpec (100 * 0.95)
      (strikeRows (demoRows.filter (fun r => pdStrip r.month == "202511")))
      (mkRow 95, 95) :=
  contractSelection.1 demoRows 100 "202511" (mkRow 105, 105) (mkRow 95, 95)
    demo_select_eq

/-- C6: every emitted record satisfies the 20% sanity band on both legs,
and with spot 100 and only strikes [70, 130] available the nearest strike
(130 for the call target, 24% away; 70 for the put target) violates the
band, so the underlying is rejected and no record is emitted. -/
theorem sanityBand :
    (∀ (yf : String → Option ℚ) (df : List Row) (y m : ℕ) (code : String) (rec : Rec),
      processCode yf df y m code = some rec →
      |rec.callStrike - rec.spot| / rec.spot ≤ 0.20 ∧
      |rec.putStrike - rec.spot| / rec.spot ≤ 0.20) ∧
    selectContracts bandRows 100 "202511" = none ∧
    processCode (fun _ => none) bandRows 2025 10 "7203" = none := by
  refine ⟨fun yf df y m code rec h => ?_, band_select_eq, band_processCode_eq⟩
  obtain ⟨cr, pr, _, hsel, _⟩ := processCode_some_inv h
  obtain ⟨_, _, h1, h2⟩ := selectContracts_some_inv hsel
  exact ⟨h1, h2⟩

/-- Witness for C6: the record emitted for the demonstration ladder is
within the band on both legs. -/
theorem sanityBand_witness :
    |demoRec.callStrike - demoRec.spot| / demoRec.spot ≤ 0.20 ∧
    |demoRec.putStrike - demoRec.spot| / demoRec.spot ≤ 0.20 :=
  sanityBand.1 (fun _ => none) demoRows 2025 10 "7203" demoRec demo_processCode_eq

lemma resolveSpot_pos {c yfp : Option ℚ} {s : ℚ} (h : resolveSpot c yfp = some s) :
    0 < s := by
  rcases c with _ | v <;> rcases yfp with _ | w <;>
    simp only [resolveSpot] at h <;>
    repeat' split at h
  all_goals simp_all

lemma sorted_getLast?_max {l : List (ℤ × ℚ)}
    (hs : List.Sorted (fun a b : ℤ × ℚ => a.1 ≤ b.1) l) {x : ℤ × ℚ}
    (hx : l.getLast? = some x) : ∀ y ∈ l, y.1 ≤ x.1 := by
  induction l with
  | nil => exact absurd hx (by simp)
  | cons a l ih =>
    match l with
    | [] =>
      obtain rfl : a = x := by simpa using hx
      intro y hy
      obtain rfl : y = a := by simpa using hy
      exact le_refl _
    | b :: l2 =>
      rw [List.getLast?_cons_cons] at hx
      have hmax := ih hs.of_cons hx
      intro y hy
      rcases List.mem_cons.mp hy with rfl | hy2
      · exact List.rel_of_sorted_cons hs x (List.mem_of_getLast?_eq_some hx)
      · exact hmax y hy2

/-- C7: the Day Processor uses the chain's own underlying-closing-price
field as spot exactly when it is present and positive; otherwise it falls
back to the external source (filtered to positive); when neither path
yields a positive price the underlying is skipped with no record; the
external source returns the close of the most recent history row on or
before the trade date, and no data when no such row exists; and an emitted
record's spot is exactly the resolved (positive) spot. -/
theorem spotResolution :
    (∀ (c yfp : Option ℚ) (s : ℚ), c = some s → 0 < s →
      resolveSpot c yfp = some s) ∧
    (∀ (c yfp : Option ℚ) (v : ℚ), (c = none ∨ ∃ s, c = some s ∧ s ≤ 0) →
      yfp = some v → 0 < v → resolveSpot c yfp = some v) ∧
    (∀ c yfp : Option ℚ, (c = none ∨ ∃ s, c = some s ∧ s ≤ 0) →
      (yfp = none ∨ ∃ v, yfp = some v ∧ v ≤ 0) → resolveSpot c yfp = none) ∧
    (∀ (hist : List (ℤ × ℚ)) (d : ℤ) (q : ℚ),
      List.Sorted (fun a b : ℤ × ℚ => a.1 ≤ b.1) hist →
      get_stock_price_from_yf hist d = some q →
      ∃ t : ℤ, (t, q) ∈ hist ∧ t ≤ d ∧ ∀ p ∈ hist, p.1 ≤ d → p.1 ≤ t) ∧
    (∀ (hist : List (ℤ × ℚ)) (d : ℤ), (∀ p ∈ hist, ¬ p.1 ≤ d) →
      get_stock_price_from_yf hist d = none) ∧
    (∀ (yf : String → Option ℚ) (df : List Row) (y m : ℕ) (code : String),
      resolveSpot ((df.filter (fun r => r.productCode.take 4 == code)).head?.bind
        (fun r => r.underlyingClose)) (yf code) = none →
      processCode yf df y m code = none) ∧
    (∀ (yf : String → Option ℚ) (df : List Row) (y m : ℕ) (code : String) (rec : Rec),
      processCode yf df y m code = some rec →
      resolveSpot ((df.filter (fun r => r.productCode.take 4 == code)).head?.bind
        (fun r => r.underlyingClose)) (yf code) = some rec.spot ∧ 0 < rec.spot) := by
  refine ⟨?_, ?_, ?_, ?_, ?_, ?_, ?_⟩
  · intro c yfp s hc hs
    subst hc
    simp [resolveSpot, not_le.mpr hs]
  · intro c yfp v hc hv hvpos
    subst hv
    rcases hc with rfl | ⟨s0, rfl, hs0⟩
    · simp [resolveSpot, not_le.mpr hvpos]
    · simp [resolveSpot, hs0, not_le.mpr hvpos]
  · intro c yfp hc hy
    rcases hc with rfl | ⟨s0, rfl, hs0⟩ <;> rcases hy with rfl | ⟨v0, rfl, hv0⟩ <;>
      simp [resolveSpot, *]
  · intro hist d q hs h
    unfold get_stock_price_from_yf at h
    obtain ⟨pr, hlast, hq⟩ := Option.map_eq_some'.mp h
    have hmem := List.mem_of_getLast?_eq_some hlast
    have hmem2 := (List.mem_filter.mp hmem).1
    have hpred := (List.mem_filter.mp hmem).2
    have hmax := sorted_getLast?_max (List.Pairwise.filter _ hs) hlast
    refine ⟨pr.1, ?_, by simpa using hpred, ?_⟩
    · rw [← hq]
      simpa using hmem2
    · intro p hp hpd
      exact hmax p (List.mem_filter.mpr ⟨hp, by simpa using hpd⟩)
  · intro hist d h
    have hnil : hist.filter (fun p => decide (p.1 ≤ d)) = [] :=
      List.filter_eq_nil_iff.mpr (fun a ha => by simpa using h a ha)
    simp [get_stock_price_from_yf, hnil]
  · intro yf df y m code h
    simp only [processCode, processCodeRows]
    by_cases hemp : (df.filter (fun r => r.productCode.take 4 == code)).isEmpty
    · rw [if_pos hemp]
    · rw [if_neg hemp, h]
  · intro yf df y m code rec h
    obtain ⟨cr, pr, hspot, _⟩ := processCode_some_inv h
    exact ⟨hspot, resolveSpot_pos hspot⟩

/-- Witness for C7: a positive chain close is used as is; the external
source is used as fallback; a zero chain close with no fallback skips; the
external source picks the most recent close on or before the date; and an
empty chain with no external data emits nothing. -/
theorem spotResolution_witness :
    resolveSpot (some 100) none = some 100 ∧
    resolveSpot none (some 50) = some 50 ∧
    resolveSpot (some 0) none = none ∧
    (∃ t : ℤ, (t, (25:ℚ)) ∈ [((1:ℤ), (20:ℚ)), (2, 25)] ∧ t ≤ 3 ∧
      ∀ p ∈ [((1:ℤ), (20:ℚ)), (2, 25)], p.1 ≤ 3 → p.1 ≤ t) ∧
    processCode (fun _ => none) [] 2025 10 "7203" = none :=
  ⟨spotResolution.1 (some 100) none 100 rfl (by norm_num),
   spotResolution.2.1 none (some 50) 50 (Or.inl rfl) rfl (by norm_num),
   spotResolution.2.2.1 (some 0) none (Or.inr ⟨0, rfl, le_refl 0⟩) (Or.inl rfl),
   spotResolution.2.2.2.1 [((1:ℤ), (20:ℚ)), (2, 25)] 3 25 (by decide) (by rfl),
   spotResolution.2.2.2.2.2.1 (fun _ => none) [] 2025 10 "7203" rfl⟩

/-- C8: in every emitted record, the call-side IV is usable only when
positive (non-positive or unparsable is `none`); the call and put
theoretical prices come from the Pricing Engine with `T = 30/365`, `r = 0`
and the call-side IV exactly when a usable call-side IV exists, and
otherwise stay absent; and the put implied volatility is computed by
inversion exactly when the put market price is a positive number,
independently of the call-IV path. -/
theorem pricingStep (yf : String → Option ℚ) (df : List Row) (y m : ℕ)
    (code : String) (rec : Rec) (h : processCode yf df y m code = some rec) :
    (∀ s, rec.sigmaCall = some s → 0 < s) ∧
    (rec.sigmaCall = none → rec.callTheo = none ∧ rec.putTheo = none) ∧
    (∀ s, rec.sigmaCall = some s →
      rec.callTheo =
        bs_call_price (rec.spot : ℝ) (rec.callStrike : ℝ) (30 / 365) 0 (s : ℝ) ∧
      rec.putTheo =
        bs_put_price (rec.spot : ℝ) (rec.putStrike : ℝ) (30 / 365) 0 (s : ℝ)) ∧
    (∀ p, rec.putPrice = some p → 0 < p →
      rec.putIV =
        implied_vol_put (rec.spot : ℝ) (rec.putStrike : ℝ) (30 / 365) 0 (p : ℝ)) ∧
    ((rec.putPrice = none ∨ ∃ p, rec.putPrice = some p ∧ p ≤ 0) →
      rec.putIV = none) := by
  obtain ⟨cr, pr, _, _, _, _, _, hsig, hct, hpt, hpp, hpiv, _⟩ :=
    processCode_some_inv h
  refine ⟨?_, ?_, ?_, ?_, ?_⟩
  · intro s hs
    rw [hsig] at hs
    rcases hciv : cr.callIV with _ | v
    · rw [hciv] at hs
      exact absurd hs (by simp)
    · rw [hciv] at hs
      dsimp only at hs
      by_cases hv : v ≤ 0
      · rw [if_pos hv] at hs
        exact absurd hs (by simp)
      · rw [if_neg hv] at hs
        injection hs with hs
        rw [← hs]
        exact not_le.mp hv
  · intro h0
    rw [hct, hpt, h0]
    exact ⟨rfl, rfl⟩
  · intro s h0
    rw [hct, hpt, h0]
    exact ⟨rfl, rfl⟩
  · intro p hp hpos
    have hpc : pr.putClose = some p := hpp.symm.trans hp
    rw [hpiv, hpc]
    dsimp only
    rw [if_pos hpos]
  · intro h0
    rcases h0 with h0 | ⟨p, h0, hle⟩
    · have hpc : pr.putClose = none := hpp.symm.trans h0
      rw [hpiv, hpc]
    · have hpc : pr.putClose = some p := hpp.symm.trans h0
      rw [hpiv, hpc]
      dsimp only
      rw [if_neg (not_lt.mpr hle)]

/-- Witness for C8: the demonstration record has no usable call IV and no
put close, so all derived pricing fields are absent. -/
theorem pricingStep_witness :
    demoRec.callTheo = none ∧ demoRec.putTheo = none ∧ demoRec.putIV = none :=
  ⟨((pricingStep (fun _ => none) demoRows 2025 10 "7203" demoRec
      demo_processCode_eq).2.1 rfl).1,
   ((pricingStep (fun _ => none) demoRows 2025 10 "7203" demoRec
      demo_processCode_eq).2.1 rfl).2,
   (pricingStep (fun _ => none) demoRows 2025 10 "7203" demoRec
      demo_processCode_eq).2.2.2.2 (Or.inl rfl)⟩

lemma foldl_loopStep_eq_filterMap (yf : String → Option ℚ) (df : List Row)
    (y m : ℕ) (l : List String) (acc : List Rec) :
    l.foldl (loopStep yf df y m) acc =
      acc ++ l.filterMap (fun code => processCode yf df y m code) := by
  induction l generalizing acc with
  | nil => simp
  | cons x xs ih =>
    simp only [List.foldl_cons, List.filterMap_cons]
    rcases hx : processCode yf df y m x with _ | r
    · rw [loopStep, hx, ih]
    · rw [loopStep, hx, ih]
      simp

/-- C9: the watchlist loop of `process_one_day` is exactly a filterMap of
the per-underlying processor over `TARGET_CODES` — an underlying that
yields no record (any per-underlying failure, modelled as `none`) is simply
skipped and every remaining code is still processed, and the loop itself
is total (no failure escapes to the caller); moreover each underlying's
outcome depends only on the chain rows whose code prefix matches it, so
corrupting or removing one underlying's rows leaves every other
underlying's record unchanged. -/
theorem failureIsolation :
    (∀ (yf : String → Option ℚ) (df : List Row) (y m : ℕ),
      process_one_day yf df y m =
        TARGET_CODES.filterMap (fun code => processCode yf df y m code)) ∧
    (∀ (yf : String → Option ℚ) (df df2 : List Row) (y m : ℕ) (code : String),
      df.filter (fun r => r.productCode.take 4 == code) =
        df2.filter (fun r => r.productCode.take 4 == code) →
      processCode yf df y m code = processCode yf df2 y m code) := by
  constructor
  · intro yf df y m
    unfold process_one_day
    have h := foldl_loopStep_eq_filterMap yf df y m TARGET_CODES []
    simpa using h
  · intro yf df df2 y m code h
    simp only [processCode]
    rw [h]

/-- Witness for C9: appending a foreign underlying's row to the chain does
not change the record computed for code 7203. -/
theorem failureIsolation_witness :
    processCode (fun _ => none) demoRows 2025 10 "7203" =
      processCode (fun _ => none) (demoRows ++ [junkRow]) 2025 10 "7203" :=
  failureIsolation.2 (fun _ => none) demoRows (demoRows ++ [junkRow]) 2025 10
    "7203" (by decide)
